import Mathlib

/-!
# Verification of the fair-event-seat-distribution allocation engine

Shallow embedding of the seat-allocation engine of the repository
(`src/backend/data.rs`) and of the lifecycle endpoints (`src/gui/admin.rs`),
together with proofs of the specification's testable properties.

Modelling conventions:
* Rust `Uuid` values are modelled as `Nat` (an opaque, totally ordered
  identifier; `Uuid` implements `Ord` byte-lexicographically, so any total
  order is a faithful model).
* `usize` is modelled as `Nat` (the code only counts list elements, no
  overflow is reachable).
* `HashMap<Uuid, Participant>` is modelled as an association list
  `List (Nat × Participant)`; the code only uses `get` / `get_mut`.
* Panics (`unwrap`, `Vec::remove` out of range) and divergence of the
  allocation loop are modelled by `Option`: `none` means the Rust code
  panics or loops forever, `some` is the state after a normal return.
-/

namespace SeatDistribution

/-- Rust enum `ApplicationPriority` (data.rs). -/
inductive ApplicationPriority where
  | FirstPreference
  | SecondPreference
  | ThirdPreference
  | NoPreference
deriving DecidableEq, Repr

/-- Rust enum `EventState` (data.rs). -/
inductive EventState where
  | NotOpenedYet
  | OpenForRegistration
  | AssigningSeats
  | Finished
deriving DecidableEq, Repr

/-- Rust struct `Participant` (data.rs). -/
structure Participant where
  uuid : Nat
  name : String
  points_from_previous_rounds : Nat
deriving DecidableEq, Repr

/-- Rust struct `Application` (data.rs). -/
structure Application where
  uuid : Nat
  session_uuid : Nat
  participant : Nat
  priority : ApplicationPriority
  calculated_points : Option Nat
deriving DecidableEq, Repr

/-- Rust struct `Session` (data.rs). -/
structure Session where
  uuid : Nat
  name : String
  description : Option String
  seats : Nat
  participants : List Nat
  applications : List Application
deriving DecidableEq, Repr

/-- Rust struct `Slot` (data.rs). -/
structure Slot where
  uuid : Nat
  name : String
  description : Option String
  sessions : List Session
deriving DecidableEq, Repr

/-- Rust struct `Event` (data.rs).  `participants` models the
`HashMap<Uuid, Participant>` as an association list. -/
structure Event where
  uuid : Nat
  name : String
  description : Option String
  slots : List Slot
  participants : List (Nat × Participant)
  state : EventState
deriving DecidableEq, Repr

/-- Model of `event.participants.get(&k)` on the association list modelling the map. -/
def lookupP (ps : List (Nat × Participant)) (k : Nat) : Option Participant :=
  match ps.find? (fun kp => kp.1 == k) with
  | none => none
  | some kp => some kp.2

/-- Model of `event.participants.get_mut(&k)` followed by
`participant.points_from_previous_rounds = v` (the only mutation the engine
performs on the map): a no-op when the key is absent. -/
def setPoints (ps : List (Nat × Participant)) (k : Nat) (v : Nat) :
    List (Nat × Participant) :=
  ps.map (fun kp =>
    if kp.1 = k then (kp.1, { kp.2 with points_from_previous_rounds := v }) else kp)

/-- The score a pending application contributes in
`find_session_with_highest_ranked_application`:
`application.calculated_points.unwrap_or(0)` (data.rs lines 196-197). -/
def appScore (a : Application) : Nat :=
  a.calculated_points.getD 0

/-- One step of the scan loop of
`Slot::find_session_with_highest_ranked_application` (data.rs lines 194-201):
state is `(highscore, highscore_session_id)`. -/
def findStep (st : Nat × Option Nat) (s : Session) : Nat × Option Nat :=
  match s.applications.head? with
  | none => st
  | some a => if st.1 ≤ appScore a then (appScore a, some a.session_uuid) else st

/-- Rust `Slot::find_session_with_highest_ranked_application` (data.rs 190-204):
scans the sessions in order, keeps the last head application whose score is
`≥` the running high score (initially 0), and returns that application's
`session_uuid` field. -/
def findSessionWithHighestRankedApplication (sessions : List Session) :
    Option Nat :=
  (sessions.foldl findStep (0, none)).2

/-- Model of `slot.sessions.iter_mut().find(|s| s.uuid == session_id)` (data.rs 120),
as the index of the first session with the given uuid. -/
def firstIdxWithUuid (sid : Nat) : List Session → Option Nat
  | [] => none
  | s :: rest =>
      if s.uuid = sid then some 0 else (firstIdxWithUuid sid rest).map (· + 1)

/-- The carried-points value written by the `match application.priority`
block of `allocate_participants_in_slot` (data.rs 141-166). -/
def carryPoints : ApplicationPriority → Nat
  | .FirstPreference => 0
  | .SecondPreference => 5
  | .ThirdPreference => 10
  | .NoPreference => 15

/-- Result of one iteration of the `while let` loop of
`Event::allocate_participants_in_slot` (data.rs 119-167). -/
inductive StepRes where
  | done : StepRes
  | panic : StepRes
  | next : List (Nat × Participant) → List Session → StepRes
deriving DecidableEq

/-- One iteration of the `while let` loop of
`Event::allocate_participants_in_slot` (data.rs 119-167):
`done` when `find_session_with_highest_ranked_application` returns `None`;
`panic` when one of the two `unwrap`s or `applications.remove(0)` would
panic; otherwise the updated `(event.participants, slot.sessions)` state. -/
def allocStep (ps : List (Nat × Participant)) (ss : List Session) : StepRes :=
  match findSessionWithHighestRankedApplication ss with
  | none => .done
  | some session_id =>
    match firstIdxWithUuid session_id ss with
    | none => .panic
    | some i =>
      match ss[i]? with
      | none => .panic
      | some session =>
        if session.seats ≤ session.participants.length then
          .next ps (ss.set i { session with applications := [] })
        else
          match session.applications with
          | [] => .panic
          | application :: rest =>
            let pid := application.participant
            let ss1 :=
              (ss.set i { session with
                  participants := session.participants ++ [pid],
                  applications := rest }).map
                (fun s => { s with
                  applications := s.applications.filter
                    (fun a => a.participant != pid) })
            .next (setPoints ps pid (carryPoints application.priority)) ss1

/-- The `while let` loop of `Event::allocate_participants_in_slot`, with
explicit fuel.  Each continuing iteration of the Rust loop strictly decreases
the total number of pending applications in the slot (otherwise the Rust loop
diverges), so fuel `totalApplications + 1` is exact: `none` means the Rust
loop panics or diverges. -/
def allocLoop : Nat → List (Nat × Participant) → List Session →
    Option (List (Nat × Participant) × List Session)
  | 0, _, _ => none
  | fuel + 1, ps, ss =>
    match allocStep ps ss with
    | .done => some (ps, ss)
    | .panic => none
    | .next ps' ss' => allocLoop fuel ps' ss'

/-- Total number of pending applications across the sessions of a slot. -/
def totalApplications : List Session → Nat
  | [] => 0
  | s :: rest => s.applications.length + totalApplications rest

/-- Rust `Event::allocate_participants_in_slot` (data.rs 117-168).
`none` models a panic (`self.slots.get_mut(index).unwrap()` or a failure
inside the loop) or divergence of the loop. -/
def allocate_participants_in_slot (e : Event) (index : Nat) : Option Event :=
  match e.slots[index]? with
  | none => none
  | some slot =>
    match allocLoop (totalApplications slot.sessions + 1)
        e.participants slot.sessions with
    | none => none
    | some (ps, ss) =>
      some { e with
        participants := ps,
        slots := e.slots.set index { slot with sessions := ss } }

/-- Rust `Event::allocate_participants` (data.rs 111-115):
`for i in 0..self.slots.len() { self.allocate_participants_in_slot(i) }`. -/
def allocate_participants (e : Event) : Option Event :=
  (List.range e.slots.length).foldlM
    (fun ev i => allocate_participants_in_slot ev i) e

/-- The `preference_bonus` table inside `Application::calculate_points`
(data.rs 294-307). -/
def preferenceBonus : ApplicationPriority → Nat
  | .FirstPreference => 15
  | .SecondPreference => 10
  | .ThirdPreference => 5
  | .NoPreference => 0

/-- Rust `Application::calculate_points` (data.rs 289-309): starts from 0, adds
`points_from_previous_rounds` when it is non-zero, adds the preference bonus,
and stores the result in `calculated_points`. -/
def calculate_points (p : Participant) (a : Application) : Application :=
  let base := if p.points_from_previous_rounds ≠ 0
    then p.points_from_previous_rounds else 0
  { a with calculated_points := some (base + preferenceBonus a.priority) }

/-- Rust's derived `Ord` for `Option<usize>`: `None` sorts below `Some`. -/
def cmpOptNat : Option Nat → Option Nat → Ordering
  | none, none => .eq
  | none, some _ => .lt
  | some _, none => .gt
  | some a, some b => compare a b

/-- Rust `impl Ord for Application` (data.rs 264-270):
`calculated_points` first, then `uuid`. -/
def applicationCmp (a b : Application) : Ordering :=
  (cmpOptNat a.calculated_points b.calculated_points).then
    (compare a.uuid b.uuid)

/-- The Boolean "may precede" relation induced by the comparator
`|a, b| b.cmp(a)` passed to `sort_by` in `Session::rank_applications`
(data.rs 243): `a` may come before `b` when the comparator does not order
`a` strictly after `b`. -/
def applicationLe (a b : Application) : Bool :=
  match applicationCmp b a with
  | .gt => false
  | _ => true

/-- Stable insertion of `a` into `l`: `a` is placed before the first element
it may precede, hence after every earlier element that compares equal. -/
def insertSorted (le : α → α → Bool) (a : α) : List α → List α
  | [] => [a]
  | b :: bs => if le a b then a :: b :: bs else b :: insertSorted le a bs

/-- Stable sort by a total comparator; models Rust's `Vec::sort_by`
(a stable sort — any two stable sorts by the same total comparator produce
identical output, so insertion sort is a faithful model). -/
def sortBy (le : α → α → Bool) : List α → List α
  | [] => []
  | a :: rest => insertSorted le a (sortBy le rest)

/-- Rust `Session::rank_applications` (data.rs 228-244): drop applications whose
participant is not in the event's participant table, compute
`calculated_points` for the kept ones (`retain_mut`), then
`sort_by(|a, b| b.cmp(a))` (descending). -/
def rank_applications (s : Session) (participants : List (Nat × Participant)) :
    Session :=
  let kept := s.applications.filterMap (fun a =>
    match lookupP participants a.participant with
    | none => none
    | some p => some (calculate_points p a))
  { s with applications := sortBy applicationLe kept }

/-- Well-formedness of a slot's sessions: every pending application's
`session_uuid` is the uuid of the session whose queue holds it. -/
def sessionsWF (ss : List Session) : Prop :=
  ∀ s ∈ ss, ∀ a ∈ s.applications, a.session_uuid = s.uuid

instance (ss : List Session) : Decidable (sessionsWF ss) := by
  unfold sessionsWF; infer_instance

/-- Well-formedness of an event: every slot's sessions are well formed. -/
def eventWF (e : Event) : Prop :=
  ∀ slot ∈ e.slots, sessionsWF slot.sessions

instance (e : Event) : Decidable (eventWF e) := by
  unfold eventWF; infer_instance

/-- The sessions of a slot carry pairwise distinct uuids. -/
def uuidsNodup (ss : List Session) : Prop :=
  (ss.map (fun s => s.uuid)).Nodup

instance (ss : List Session) : Decidable (uuidsNodup ss) := by
  unfold uuidsNodup; infer_instance

/-- Every slot of the event has pairwise distinct session uuids. -/
def eventUuidsNodup (e : Event) : Prop :=
  ∀ slot ∈ e.slots, uuidsNodup slot.sessions

instance (e : Event) : Decidable (eventUuidsNodup e) := by
  unfold eventUuidsNodup; infer_instance

/-- Capacity invariant for a list of sessions. -/
def capOK (ss : List Session) : Prop :=
  ∀ s ∈ ss, s.participants.length ≤ s.seats

instance (ss : List Session) : Decidable (capOK ss) := by
  unfold capOK; infer_instance

/-- Number of seats a given participant occupies across the sessions of a
slot (counting repetitions inside one session). -/
def seatOcc (pid : Nat) : List Session → Nat
  | [] => 0
  | s :: rest => s.participants.count pid + seatOcc pid rest

/-- HTTP-level responses of the admin endpoints that matter to the claims.
`InternalPanic` stands for a Rust panic escaping the handler. -/
inductive Status where
  | NotFound
  | BadRequest
  | Forbidden
  | InternalPanic
deriving DecidableEq, Repr

/-- The ranking pass of `close_and_distribute` (admin.rs 173-179): every
session of every slot is ranked against the participant table of the
snapshot `ev_clone_for_ref` taken at call time (ranking never touches the
participant table, so the snapshot's table is the event's table). -/
def rank_event (e : Event) : Event :=
  { e with slots := e.slots.map (fun sl =>
      { sl with sessions :=
          sl.sessions.map (fun s => rank_applications s e.participants) }) }

/-- Rust `close_and_distribute` (admin.rs 161-188), restricted to an existing
event and an admin session (the claims are about that path).  Returns the
stored event after the call together with the handler's response: on any
state other than `OpenForRegistration` the handler returns `BadRequest`
before mutating anything; otherwise it sets `AssigningSeats`, ranks, runs
`allocate_participants`, and sets `Finished`.  A panic inside allocation
leaves the event in `AssigningSeats`. -/
def close_and_distribute (ev : Event) : Event × Except Status Unit :=
  match ev.state with
  | EventState.OpenForRegistration =>
    let ev2 := rank_event { ev with state := EventState.AssigningSeats }
    match allocate_participants ev2 with
    | none => (ev2, Except.error Status.InternalPanic)
    | some ev3 => ({ ev3 with state := EventState.Finished }, Except.ok ())
  | _ => (ev, Except.error Status.BadRequest)

/-- The `match desired.as_str()` block of `set_event_state` (admin.rs
197-201): only the two literal state names parse. -/
def parseEventState (s : String) : Option EventState :=
  if s = "NotOpenedYet" then some EventState.NotOpenedYet
  else if s = "OpenForRegistration" then some EventState.OpenForRegistration
  else none

/-- The `allowed_transition` condition of `set_event_state` (admin.rs
203-206): the two explicit edges, or equal discriminants (same
constructor). -/
def allowed_transition (s t : EventState) : Bool :=
  (match s, t with
   | EventState.NotOpenedYet, EventState.OpenForRegistration => true
   | EventState.OpenForRegistration, EventState.NotOpenedYet => true
   | _, _ => false) || decide (s = t)

/-- Rust `set_event_state` (admin.rs 190-217), restricted to an existing event and
an admin session.  Returns the stored event after the call and the
response. -/
def set_event_state (ev : Event) (desired : String) :
    Event × Except Status Unit :=
  match parseEventState desired with
  | none => (ev, Except.error Status.BadRequest)
  | some target =>
    if allowed_transition ev.state target
    then ({ ev with state := target }, Except.ok ())
    else (ev, Except.error Status.BadRequest)

/-- Order-embedding of `Option Nat` with `none` below every `some`. -/
def encOpt : Option Nat → Nat
  | none => 0
  | some a => a + 1

/-! ## Concrete demonstration data (Scenario A of the specification and a
pathological slot with duplicated session uuids) -/

/-- Scenario A: P1's application to Math (identifier sorts after P2's). -/
def appP1 : Application :=
  { uuid := 102, session_uuid := 1, participant := 10,
    priority := .FirstPreference, calculated_points := none }

/-- Scenario A: P2's application to Math. -/
def appP2 : Application :=
  { uuid := 101, session_uuid := 1, participant := 11,
    priority := .FirstPreference, calculated_points := none }

/-- Scenario A: P3's application to Art. -/
def appP3 : Application :=
  { uuid := 103, session_uuid := 2, participant := 12,
    priority := .FirstPreference, calculated_points := none }

/-- Scenario A: session "Math", capacity 1, queue [P1, P2]. -/
def mathS : Session :=
  { uuid := 1, name := "Math", description := none, seats := 1,
    participants := [], applications := [appP1, appP2] }

/-- Scenario A: session "Art", capacity 1, queue [P3]. -/
def artS : Session :=
  { uuid := 2, name := "Art", description := none, seats := 1,
    participants := [], applications := [appP3] }

/-- Scenario A: participant table with P1, P2, P3, all carrying 0 points. -/
def demoParticipants : List (Nat × Participant) :=
  [(10, { uuid := 10, name := "P1", points_from_previous_rounds := 0 }),
   (11, { uuid := 11, name := "P2", points_from_previous_rounds := 0 }),
   (12, { uuid := 12, name := "P3", points_from_previous_rounds := 0 })]

/-- Scenario A: the single slot holding Math and Art. -/
def demoSlot : Slot :=
  { uuid := 50, name := "Slot 1", description := none,
    sessions := [mathS, artS] }

/-- Scenario A: one slot, two sessions, three participants, open event. -/
def demoEvent : Event :=
  { uuid := 99, name := "Demo", description := none,
    slots := [demoSlot],
    participants := demoParticipants,
    state := EventState.OpenForRegistration }

/-- The slot after allocation: P1 (id 10) seated in Math, P3 (id 12) seated
in Art, both queues drained. -/
def demoSlotFinal : Slot :=
  { uuid := 50, name := "Slot 1", description := none,
    sessions :=
      [{ uuid := 1, name := "Math", description := none, seats := 1,
         participants := [10], applications := [] },
       { uuid := 2, name := "Art", description := none, seats := 1,
         participants := [12], applications := [] }] }

/-- The demo event after allocating its single slot. -/
def demoAllocated : Event :=
  { uuid := 99, name := "Demo", description := none,
    slots := [demoSlotFinal],
    participants := demoParticipants,
    state := EventState.OpenForRegistration }

/-- A slot whose two sessions share uuid 7; the pending application sits in
the second session and references it correctly. -/
def dupApp : Application :=
  { uuid := 201, session_uuid := 7, participant := 20,
    priority := .FirstPreference, calculated_points := none }

/-- First session with the duplicated uuid: empty queue, free seat. -/
def dupEmptyS : Session :=
  { uuid := 7, name := "A", description := none, seats := 1,
    participants := [], applications := [] }

/-- Second session with the duplicated uuid: holds the pending application. -/
def dupFullS : Session :=
  { uuid := 7, name := "B", description := none, seats := 1,
    participants := [], applications := [dupApp] }

/-- Event whose single slot carries the duplicated-uuid sessions.  Every
application references the session that holds it, yet allocation panics. -/
def dupEvent : Event :=
  { uuid := 98, name := "Dup", description := none,
    slots := [{ uuid := 51, name := "S", description := none,
                sessions := [dupEmptyS, dupFullS] }],
    participants :=
      [(20, { uuid := 20, name := "PB", points_from_previous_rounds := 0 })],
    state := EventState.OpenForRegistration }

deriving instance DecidableEq for Except

/-! ## Helper lemmas: list indexing -/

theorem lt_length_of_getElem? {α : Type _} {l : List α} {i : Nat} {a : α}
    (h : l[i]? = some a) : i < l.length := by
  by_contra hn
  push_neg at hn
  rw [List.getElem?_eq_none hn] at h
  cases h

theorem getElem?_append_singleton_cases {α : Type _} {l : List α} {x t : α}
    {j : Nat} (h : (l ++ [x])[j]? = some t) :
    (l[j]? = some t ∧ j < l.length) ∨ (j = l.length ∧ t = x) := by
  rcases Nat.lt_trichotomy j l.length with hj | hj | hj
  · left
    refine ⟨?_, hj⟩
    rw [List.getElem?_append] at h
    simpa [hj] using h
  · right
    subst hj
    rw [List.getElem?_concat_length] at h
    injection h with h
    exact ⟨rfl, h.symm⟩
  · exfalso
    have hnone : (l ++ [x])[j]? = none := by
      apply List.getElem?_eq_none
      simp only [List.length_append, List.length_cons, List.length_nil]
      omega
    rw [hnone] at h
    cases h

theorem getElem?_append_singleton_of_lt {α : Type _} {l : List α} {x : α}
    {j : Nat} (hj : j < l.length) : (l ++ [x])[j]? = l[j]? := by
  rw [List.getElem?_append]
  simp [hj]

/-! ## Characterisation of `find_session_with_highest_ranked_application` -/

/-- Characterisation of the scan loop: if the scan records no session then
every session's queue is empty and the high score is 0; if it records a
session id `u` then `u` is the `session_uuid` of the head application of the
session at some index `i`, that head's score equals the final high score,
every head's score is at most the final high score, and every head strictly
after position `i` scores strictly below it (last-wins-on-tie). -/
theorem findFold_char (l : List Session) :
    ((l.foldl findStep (0, none)).2 = none →
        (∀ s ∈ l, s.applications = []) ∧ (l.foldl findStep (0, none)).1 = 0) ∧
    (∀ u, (l.foldl findStep (0, none)).2 = some u →
      ∃ (i : Nat) (s : Session) (a : Application),
        l[i]? = some s ∧ s.applications.head? = some a ∧
        u = a.session_uuid ∧ appScore a = (l.foldl findStep (0, none)).1 ∧
        (∀ (j : Nat) (t : Session) (b : Application),
          l[j]? = some t → t.applications.head? = some b →
          appScore b ≤ (l.foldl findStep (0, none)).1) ∧
        (∀ (j : Nat) (t : Session) (b : Application),
          l[j]? = some t → t.applications.head? = some b → i < j →
          appScore b < (l.foldl findStep (0, none)).1)) := by
  induction l using List.reverseRecOn with
  | nil => simp
  | append_singleton l x ih =>
    obtain ⟨ihnone, ihsome⟩ := ih
    have hfold : (l ++ [x]).foldl findStep (0, none)
        = findStep (l.foldl findStep (0, none)) x := by
      rw [List.foldl_append, List.foldl_cons, List.foldl_nil]
    rcases hx : x.applications.head? with _ | a
    · -- the appended session has no pending application: state unchanged
      have hstep : findStep (l.foldl findStep (0, none)) x
          = l.foldl findStep (0, none) := by
        unfold findStep
        rw [hx]
      rw [hfold, hstep]
      constructor
      · intro hnone
        obtain ⟨hall, hsc⟩ := ihnone hnone
        refine ⟨?_, hsc⟩
        intro s hs
        rcases List.mem_append.mp hs with hs | hs
        · exact hall s hs
        · have : s = x := by simpa using hs
          subst this
          exact List.head?_eq_none_iff.mp hx
      · intro u hu
        obtain ⟨i, s, a, h1, h2, h3, h4, h5, h6⟩ := ihsome u hu
        have hilt : i < l.length := lt_length_of_getElem? h1
        refine ⟨i, s, a, ?_, h2, h3, h4, ?_, ?_⟩
        · rw [getElem?_append_singleton_of_lt hilt]; exact h1
        · intro j t b hj hb
          rcases getElem?_append_singleton_cases hj with ⟨hj', _⟩ | ⟨_, ht⟩
          · exact h5 j t b hj' hb
          · subst ht
            rw [hx] at hb
            cases hb
        · intro j t b hj hb hij
          rcases getElem?_append_singleton_cases hj with ⟨hj', _⟩ | ⟨_, ht⟩
          · exact h6 j t b hj' hb hij
          · subst ht
            rw [hx] at hb
            cases hb
    · -- the appended session has a head application `a`
      have hstep : findStep (l.foldl findStep (0, none)) x
          = if (l.foldl findStep (0, none)).1 ≤ appScore a
            then (appScore a, some a.session_uuid)
            else l.foldl findStep (0, none) := by
        unfold findStep
        rw [hx]
      by_cases hle : (l.foldl findStep (0, none)).1 ≤ appScore a
      · -- the scan records session `x`
        rw [hfold, hstep, if_pos hle]
        constructor
        · intro h
          cases h
        · intro u hu
          have hu' : u = a.session_uuid := by
            simpa using hu.symm
          refine ⟨l.length, x, a, ?_, hx, hu', rfl, ?_, ?_⟩
          · exact List.getElem?_concat_length l x
          · intro j t b hj hb
            rcases getElem?_append_singleton_cases hj with ⟨hj', _⟩ | ⟨_, ht⟩
            · -- earlier sessions were bounded by the previous high score
              rcases h2 : (l.foldl findStep (0, none)).2 with _ | v
              · obtain ⟨hall, _⟩ := ihnone h2
                have := hall t (List.getElem?_mem hj')
                rw [this] at hb
                cases hb
              · obtain ⟨_, _, _, _, _, _, _, h5, _⟩ := ihsome v h2
                exact le_trans (h5 j t b hj' hb) hle
            · subst ht
              rw [hx] at hb
              injection hb with hb
              subst hb
              exact le_refl _
          · intro j t b hj _ hij
            exfalso
            have hlen : j < l.length + 1 := by
              have := lt_length_of_getElem? hj
              simpa using this
            omega
      · -- the new head scores strictly below the previous high score
        rw [hfold, hstep, if_neg hle]
        push_neg at hle
        constructor
        · intro hnone
          obtain ⟨_, hsc⟩ := ihnone hnone
          rw [hsc] at hle
          omega
        · intro u hu
          obtain ⟨i, s, b0, h1, h2, h3, h4, h5, h6⟩ := ihsome u hu
          have hilt : i < l.length := lt_length_of_getElem? h1
          refine ⟨i, s, b0, ?_, h2, h3, h4, ?_, ?_⟩
          · rw [getElem?_append_singleton_of_lt hilt]; exact h1
          · intro j t b hj hb
            rcases getElem?_append_singleton_cases hj with ⟨hj', _⟩ | ⟨_, ht⟩
            · exact h5 j t b hj' hb
            · subst ht
              rw [hx] at hb
              injection hb with hb
              subst hb
              exact le_of_lt hle
          · intro j t b hj hb hij
            rcases getElem?_append_singleton_cases hj with ⟨hj', _⟩ | ⟨_, ht⟩
            · exact h6 j t b hj' hb hij
            · subst ht
              rw [hx] at hb
              injection hb with hb
              subst hb
              exact hle

/-- The scan returns `None` exactly when every session's queue is empty. -/
theorem find_none_iff (ss : List Session) :
    findSessionWithHighestRankedApplication ss = none ↔
      ∀ s ∈ ss, s.applications = [] := by
  constructor
  · intro h
    exact ((findFold_char ss).1 h).1
  · intro hall
    rcases h : findSessionWithHighestRankedApplication ss with _ | u
    · rfl
    · obtain ⟨i, s, a, h1, h2, -⟩ := (findFold_char ss).2 u h
      rw [hall s (List.getElem?_mem h1)] at h2
      cases h2

/-- When the scan returns a session id, it is the `session_uuid` of the head
application of a session whose head attains the maximal head score, and
every later session's head scores strictly less. -/
theorem find_some_char {ss : List Session} {u : Nat}
    (h : findSessionWithHighestRankedApplication ss = some u) :
    ∃ (i : Nat) (s : Session) (a : Application),
      ss[i]? = some s ∧ s.applications.head? = some a ∧ u = a.session_uuid ∧
      (∀ (j : Nat) (t : Session) (b : Application),
        ss[j]? = some t → t.applications.head? = some b →
        appScore b ≤ appScore a) ∧
      (∀ (j : Nat) (t : Session) (b : Application),
        ss[j]? = some t → t.applications.head? = some b → i < j →
        appScore b < appScore a) := by
  obtain ⟨i, s, a, h1, h2, h3, h4, h5, h6⟩ := (findFold_char ss).2 u h
  refine ⟨i, s, a, h1, h2, h3, ?_, ?_⟩
  · intro j t b hj hb
    rw [h4]
    exact h5 j t b hj hb
  · intro j t b hj hb hij
    rw [h4]
    exact h6 j t b hj hb hij

/-! ## Helper lemmas: the stable sort -/

theorem perm_insertSorted {α : Type _} (le : α → α → Bool) (a : α)
    (l : List α) : (insertSorted le a l).Perm (a :: l) := by
  induction l with
  | nil => exact List.Perm.refl _
  | cons b bs ih =>
    unfold insertSorted
    by_cases h : le a b
    · rw [if_pos h]
    · rw [if_neg h]
      exact (ih.cons b).trans (List.Perm.swap a b bs)

theorem perm_sortBy {α : Type _} (le : α → α → Bool) (l : List α) :
    (sortBy le l).Perm l := by
  induction l with
  | nil => exact List.Perm.refl _
  | cons a rest ih =>
    unfold sortBy
    exact (perm_insertSorted le a (sortBy le rest)).trans (ih.cons a)

theorem pairwise_insertSorted {α : Type _} {le : α → α → Bool}
    (htot : ∀ x y, le x y = true ∨ le y x = true)
    (htrans : ∀ x y z, le x y = true → le y z = true → le x z = true)
    (a : α) {l : List α}
    (hl : l.Pairwise (fun x y => le x y = true)) :
    (insertSorted le a l).Pairwise (fun x y => le x y = true) := by
  induction l with
  | nil => simp [insertSorted]
  | cons b bs ih =>
    rw [List.pairwise_cons] at hl
    obtain ⟨hb, hbs⟩ := hl
    unfold insertSorted
    by_cases h : le a b
    · rw [if_pos h]
      refine List.Pairwise.cons ?_ (List.Pairwise.cons hb hbs)
      intro y hy
      rcases List.mem_cons.mp hy with hy | hy
      · subst hy; exact h
      · exact htrans a b y h (hb y hy)
    · rw [if_neg h]
      refine List.Pairwise.cons ?_ (ih hbs)
      intro y hy
      have hy' := (perm_insertSorted le a bs).mem_iff.mp hy
      rcases List.mem_cons.mp hy' with hy' | hy'
      · rw [hy']
        rcases htot a b with hd | hd
        · exact absurd hd h
        · exact hd
      · exact hb y hy'

theorem pairwise_sortBy {α : Type _} {le : α → α → Bool}
    (htot : ∀ x y, le x y = true ∨ le y x = true)
    (htrans : ∀ x y z, le x y = true → le y z = true → le x z = true)
    (l : List α) :
    (sortBy le l).Pairwise (fun x y => le x y = true) := by
  induction l with
  | nil => simp [sortBy]
  | cons a rest ih =>
    unfold sortBy
    exact pairwise_insertSorted htot htrans a ih

/-! ## Helper lemmas: the application comparator -/

theorem then_eq_gt (o p : Ordering) :
    o.then p = .gt ↔ o = .gt ∨ (o = .eq ∧ p = .gt) := by
  cases o <;> simp [Ordering.then]

theorem cmpOptNat_eq_compare (x y : Option Nat) :
    cmpOptNat x y = compare (encOpt x) (encOpt y) := by
  cases x with
  | none =>
    cases y with
    | none =>
      have : compare 0 0 = Ordering.eq := Nat.compare_eq_eq.mpr rfl
      simp [cmpOptNat, encOpt, this]
    | some b =>
      have : compare 0 (b + 1) = Ordering.lt := Nat.compare_eq_lt.mpr (by omega)
      simp [cmpOptNat, encOpt, this]
  | some a =>
    cases y with
    | none =>
      have : compare (a + 1) 0 = Ordering.gt := Nat.compare_eq_gt.mpr (by omega)
      simp [cmpOptNat, encOpt, this]
    | some b =>
      simp only [cmpOptNat, encOpt]
      rcases Nat.lt_trichotomy a b with h | h | h
      · rw [Nat.compare_eq_lt.mpr h, Nat.compare_eq_lt.mpr (by omega)]
      · rw [Nat.compare_eq_eq.mpr h, Nat.compare_eq_eq.mpr (by omega)]
      · rw [Nat.compare_eq_gt.mpr h, Nat.compare_eq_gt.mpr (by omega)]

theorem applicationCmp_eq_gt (a b : Application) :
    applicationCmp a b = .gt ↔
      encOpt b.calculated_points < encOpt a.calculated_points ∨
      (encOpt a.calculated_points = encOpt b.calculated_points ∧
        b.uuid < a.uuid) := by
  unfold applicationCmp
  rw [cmpOptNat_eq_compare, then_eq_gt, Nat.compare_eq_gt, Nat.compare_eq_eq,
    Nat.compare_eq_gt]

theorem applicationLe_eq_true (a b : Application) :
    applicationLe a b = true ↔ applicationCmp b a ≠ .gt := by
  unfold applicationLe
  cases h : applicationCmp b a <;> simp [h]

theorem applicationLe_total (a b : Application) :
    applicationLe a b = true ∨ applicationLe b a = true := by
  by_cases h : applicationCmp b a = .gt
  · right
    rw [applicationLe_eq_true]
    intro hc
    rw [applicationCmp_eq_gt] at h hc
    omega
  · left
    exact (applicationLe_eq_true a b).mpr h

theorem applicationLe_trans (a b c : Application)
    (h1 : applicationLe a b = true) (h2 : applicationLe b c = true) :
    applicationLe a c = true := by
  rw [applicationLe_eq_true] at h1 h2 ⊢
  intro hc
  rw [applicationCmp_eq_gt] at hc
  by_cases hba : applicationCmp b a = .gt
  · exact h1 hba
  · by_cases hcb : applicationCmp c b = .gt
    · exact h2 hcb
    · rw [applicationCmp_eq_gt] at hba hcb
      omega

theorem encOpt_inj {x y : Option Nat} (h : encOpt x = encOpt y) : x = y := by
  cases x with
  | none =>
    cases y with
    | none => rfl
    | some b =>
      exfalso
      simp only [encOpt] at h
      omega
  | some a =>
    cases y with
    | none =>
      exfalso
      simp only [encOpt] at h
      omega
    | some b =>
      simp only [encOpt] at h
      have hab : a = b := by omega
      rw [hab]

/-! ## Helper lemmas: the participant table -/

theorem lookupP_setPoints_self (ps : List (Nat × Participant)) (k v : Nat) :
    lookupP (setPoints ps k v) k =
      (lookupP ps k).map
        (fun p => { p with points_from_previous_rounds := v }) := by
  induction ps with
  | nil => rfl
  | cons kp rest ih =>
    by_cases h : kp.1 = k
    · simp [setPoints, lookupP, List.find?, h]
    · have hb : (kp.1 == k) = false := by simp [h]
      simp only [setPoints, List.map_cons, lookupP, List.find?, if_neg h, hb]
      simpa [setPoints, lookupP] using ih

/-! ## Helper lemmas: ranking -/

theorem rank_keep_fun_eq (ps : List (Nat × Participant)) :
    (fun a => match lookupP ps a.participant with
      | none => none
      | some p => some (calculate_points p a)) =
    (fun a => (lookupP ps a.participant).map
      (fun p => calculate_points p a)) := by
  funext a
  cases h : lookupP ps a.participant <;> simp [h]

theorem calculate_points_value (p : Participant) (a : Application) :
    (calculate_points p a).calculated_points =
      some (p.points_from_previous_rounds + preferenceBonus a.priority) := by
  unfold calculate_points
  by_cases h : p.points_from_previous_rounds = 0 <;> simp [h]

theorem applicationLe_imp_desc {x y : Application}
    (hx : ∃ sx, x.calculated_points = some sx)
    (hy : ∃ sy, y.calculated_points = some sy)
    (h : applicationLe x y = true) :
    appScore y < appScore x ∨
      (x.calculated_points = y.calculated_points ∧ y.uuid ≤ x.uuid) := by
  obtain ⟨sx, hx⟩ := hx
  obtain ⟨sy, hy⟩ := hy
  rw [applicationLe_eq_true, Ne, applicationCmp_eq_gt] at h
  push_neg at h
  rw [hx, hy] at h
  simp only [encOpt] at h
  obtain ⟨h1, h2⟩ := h
  rcases Nat.lt_or_ge sy sx with hlt | hge
  · left
    simp [appScore, hx, hy, Option.getD, hlt]
  · have hxy : sx = sy := by omega
    right
    subst hxy
    exact ⟨by rw [hx, hy], by have := h2 (by omega); omega⟩

/-! ## Claim C6 -/

/-- C6.  After `Session::rank_applications(event)`, the session's
applications list contains exactly (as a multiset) the previously pending
applications whose participant id is present in `event.participants` — the
others are dropped without error — with `calculated_points` set to
`Some(points_from_previous_rounds + bonus)` for the fixed bonus table
First=15, Second=10, Third=5, NoPreference=0, and the list is sorted
descending by `calculated_points` with ties broken descending by
application uuid. -/
theorem claim6_rank_applications (s : Session)
    (ps : List (Nat × Participant)) :
    ((rank_applications s ps).applications).Perm
      (s.applications.filterMap
        (fun a => (lookupP ps a.participant).map
          (fun p => calculate_points p a))) ∧
    (∀ b ∈ (rank_applications s ps).applications,
      ∃ (a : Application) (p : Participant),
        a ∈ s.applications ∧ lookupP ps a.participant = some p ∧
        b = calculate_points p a ∧
        b.calculated_points =
          some (p.points_from_previous_rounds + preferenceBonus a.priority)) ∧
    List.Pairwise
      (fun x y => appScore y < appScore x ∨
        (x.calculated_points = y.calculated_points ∧ y.uuid ≤ x.uuid))
      (rank_applications s ps).applications ∧
    preferenceBonus .FirstPreference = 15 ∧
    preferenceBonus .SecondPreference = 10 ∧
    preferenceBonus .ThirdPreference = 5 ∧
    preferenceBonus .NoPreference = 0 := by
  have hperm :
      ((rank_applications s ps).applications).Perm
        (s.applications.filterMap
          (fun a => (lookupP ps a.participant).map
            (fun p => calculate_points p a))) := by
    unfold rank_applications
    simp only
    rw [rank_keep_fun_eq ps]
    exact perm_sortBy _ _
  have hmem : ∀ b ∈ (rank_applications s ps).applications,
      ∃ (a : Application) (p : Participant),
        a ∈ s.applications ∧ lookupP ps a.participant = some p ∧
        b = calculate_points p a ∧
        b.calculated_points =
          some (p.points_from_previous_rounds + preferenceBonus a.priority) := by
    intro b hb
    have hb' := hperm.mem_iff.mp hb
    obtain ⟨a, ha, hfa⟩ := List.mem_filterMap.mp hb'
    rcases hp : lookupP ps a.participant with _ | p
    · rw [hp] at hfa
      cases hfa
    · rw [hp] at hfa
      simp only [Option.map_some'] at hfa
      injection hfa with hfa
      refine ⟨a, p, ha, hp, hfa.symm, ?_⟩
      rw [← hfa]
      exact calculate_points_value p a
  refine ⟨hperm, hmem, ?_, rfl, rfl, rfl, rfl⟩
  have hsorted : ((rank_applications s ps).applications).Pairwise
      (fun x y => applicationLe x y = true) := by
    unfold rank_applications
    simp only
    exact pairwise_sortBy applicationLe_total applicationLe_trans _
  refine List.Pairwise.imp_of_mem ?_ hsorted
  intro x y hx hy hle
  obtain ⟨ax, px, -, -, -, hxv⟩ := hmem x hx
  obtain ⟨ay, py, -, -, -, hyv⟩ := hmem y hy
  exact applicationLe_imp_desc ⟨_, hxv⟩ ⟨_, hyv⟩ hle

/-- Witness for C6: in Scenario A's Math session, the ranked head is P1's
application scored 15, and it decomposes as the claim states. -/
theorem claim6_rank_applications_witness :
    ∃ (a : Application) (p : Participant),
      a ∈ mathS.applications ∧ lookupP demoParticipants a.participant = some p ∧
      { appP1 with calculated_points := some 15 } = calculate_points p a ∧
      ({ appP1 with calculated_points := some 15 } : Application).calculated_points =
        some (p.points_from_previous_rounds + preferenceBonus a.priority) :=
  (claim6_rank_applications mathS demoParticipants).2.1
    { appP1 with calculated_points := some 15 } (by decide)

theorem mem_of_head? {α : Type _} {l : List α} {a : α}
    (h : l.head? = some a) : a ∈ l := by
  cases l with
  | nil => cases h
  | cons x t =>
    injection h with h
    rw [h]
    exact List.mem_cons_self a t

/-! ## Claim C4 -/

/-- C4.  `find_session_with_highest_ranked_application` returns `None` iff
every session in the slot has an empty applications list; otherwise it
returns (the `session_uuid` of the head application of, hence under
well-formedness the uuid of) a session whose head application attains the
maximal head score — a missing computed score counts as 0 — and every
session later in the slot's stored order has a head scoring strictly less,
i.e. on ties the later session wins. -/
theorem claim4_find_session (ss : List Session) :
    (findSessionWithHighestRankedApplication ss = none ↔
      ∀ s ∈ ss, s.applications = []) ∧
    (∀ u, findSessionWithHighestRankedApplication ss = some u →
      ∃ (i : Nat) (s : Session) (a : Application),
        ss[i]? = some s ∧ s.applications.head? = some a ∧
        u = a.session_uuid ∧
        (∀ (j : Nat) (t : Session) (b : Application), ss[j]? = some t →
          t.applications.head? = some b → appScore b ≤ appScore a) ∧
        (∀ (j : Nat) (t : Session) (b : Application), ss[j]? = some t →
          t.applications.head? = some b → i < j → appScore b < appScore a) ∧
        (sessionsWF ss → u = s.uuid)) := by
  refine ⟨find_none_iff ss, ?_⟩
  intro u hu
  obtain ⟨i, s, a, h1, h2, h3, h4, h5⟩ := find_some_char hu
  refine ⟨i, s, a, h1, h2, h3, h4, h5, ?_⟩
  intro hwf
  rw [h3]
  exact hwf s (List.getElem?_mem h1) a (mem_of_head? h2)

/-- Witness for C4: on a slot holding one session with an empty queue, the
scan returns `None`. -/
theorem claim4_find_session_witness :
    findSessionWithHighestRankedApplication [dupEmptyS] = none :=
  (claim4_find_session [dupEmptyS]).1.mpr (by decide)

/-! ## Claim C5 -/

/-- C5.  Whenever an iteration of `allocate_participants_in_slot` seats a
participant who exists in the event's participant table, it overwrites that
participant's `points_from_previous_rounds` — regardless of its previous
value — with the value keyed by the granted application's priority:
First→0, Second→5, Third→10, NoPreference→15. -/
theorem claim5_priority_carry (ps : List (Nat × Participant))
    (ss : List Session) (sid i : Nat) (session : Session)
    (app : Application) (rest : List Application) (p : Participant)
    (h1 : findSessionWithHighestRankedApplication ss = some sid)
    (h2 : firstIdxWithUuid sid ss = some i)
    (h3 : ss[i]? = some session)
    (h4 : ¬ session.seats ≤ session.participants.length)
    (h5 : session.applications = app :: rest)
    (h6 : lookupP ps app.participant = some p) :
    ∃ (ps' : List (Nat × Participant)) (ss' : List Session),
      allocStep ps ss = .next ps' ss' ∧
      lookupP ps' app.participant =
        some { p with
          points_from_previous_rounds := carryPoints app.priority } ∧
      carryPoints .FirstPreference = 0 ∧
      carryPoints .SecondPreference = 5 ∧
      carryPoints .ThirdPreference = 10 ∧
      carryPoints .NoPreference = 15 := by
  have hstep : allocStep ps ss = .next
      (setPoints ps app.participant (carryPoints app.priority))
      ((ss.set i { session with
          participants := session.participants ++ [app.participant],
          applications := rest }).map
        (fun s =>
          { s with applications := s.applications.filter (fun a => a.participant != app.participant) })) := by
    unfold allocStep
    simp only [h1, h2, h3, if_neg h4, h5]
  refine ⟨_, _, hstep, ?_, rfl, rfl, rfl, rfl⟩
  rw [lookupP_setPoints_self, h6]
  rfl

/-- Witness for C5: in ranked Scenario A, the first loop iteration seats P3
(Art wins the score-15 tie as the later session) and overwrites P3's
carried points with 0 (First preference granted). -/
theorem claim5_priority_carry_witness :
    ∃ (ps' : List (Nat × Participant)) (ss' : List Session),
      allocStep demoParticipants
        [rank_applications mathS demoParticipants,
         rank_applications artS demoParticipants] = .next ps' ss' ∧
      lookupP ps' ({ appP3 with calculated_points := some 15 } :
          Application).participant =
        some { uuid := 12, name := "P3",
               points_from_previous_rounds :=
                 carryPoints ({ appP3 with calculated_points := some 15 } :
                   Application).priority } ∧
      carryPoints .FirstPreference = 0 ∧
      carryPoints .SecondPreference = 5 ∧
      carryPoints .ThirdPreference = 10 ∧
      carryPoints .NoPreference = 15 :=
  claim5_priority_carry demoParticipants
    [rank_applications mathS demoParticipants,
     rank_applications artS demoParticipants]
    2 1 (rank_applications artS demoParticipants)
    { appP3 with calculated_points := some 15 } []
    { uuid := 12, name := "P3", points_from_previous_rounds := 0 }
    (by decide) (by decide) (by decide) (by decide) (by decide) (by decide)

/-! ## Claim C8 -/

/-- C8.  `set_event_state` accepts a requested transition (and updates the
event's state to the parsed target) exactly when the requested target parses
to `NotOpenedYet` or `OpenForRegistration` and the current state is
`NotOpenedYet` or `OpenForRegistration` (i.e. the two explicit edges and the
same-state no-ops between those two states); every other request — any
request from `AssigningSeats` or `Finished`, and any request naming
`AssigningSeats`, `Finished` or an unknown state as the target — is
rejected with `BadRequest` and leaves the event unchanged. -/
theorem claim8_set_event_state (ev : Event) (desired : String) :
    ((set_event_state ev desired).2 = Except.ok () ↔
      ((desired = "NotOpenedYet" ∨ desired = "OpenForRegistration") ∧
       (ev.state = EventState.NotOpenedYet ∨
        ev.state = EventState.OpenForRegistration))) ∧
    (∀ t, parseEventState desired = some t →
      (set_event_state ev desired).2 = Except.ok () →
      (set_event_state ev desired).1 = { ev with state := t }) ∧
    ((set_event_state ev desired).2 ≠ Except.ok () →
      set_event_state ev desired = (ev, Except.error Status.BadRequest)) := by
  by_cases hn : desired = "NotOpenedYet"
  · subst hn
    cases hs : ev.state <;>
      simp_all [set_event_state, parseEventState, allowed_transition]
  · by_cases ho : desired = "OpenForRegistration"
    · subst ho
      cases hs : ev.state <;>
        simp_all [set_event_state, parseEventState, allowed_transition]
    · have hp : parseEventState desired = none := by
        unfold parseEventState
        rw [if_neg hn, if_neg ho]
      simp [set_event_state, hp, hn, ho]

/-- Witness for C8: an open event may be closed back to `NotOpenedYet`. -/
theorem claim8_set_event_state_witness :
    (set_event_state demoEvent "NotOpenedYet").1 =
      { demoEvent with state := EventState.NotOpenedYet } :=
  (claim8_set_event_state demoEvent "NotOpenedYet").2.1
    EventState.NotOpenedYet (by decide) rfl

/-! ## Helper lemmas: locating the winning session -/

theorem firstIdx_isSome_of_mem {ss : List Session} {s : Session} {sid : Nat}
    (hmem : s ∈ ss) (huuid : s.uuid = sid) :
    (firstIdxWithUuid sid ss).isSome := by
  induction ss with
  | nil => cases hmem
  | cons t rest ih =>
    unfold firstIdxWithUuid
    by_cases ht : t.uuid = sid
    · rw [if_pos ht]
      rfl
    · rw [if_neg ht]
      rcases List.mem_cons.mp hmem with hmem | hmem
      · exact absurd (hmem ▸ huuid) ht
      · rcases ho : firstIdxWithUuid sid rest with _ | j
        · rw [ho] at ih
          cases ih hmem
        · rfl

theorem firstIdx_spec {ss : List Session} {sid i : Nat}
    (h : firstIdxWithUuid sid ss = some i) :
    ∃ s, ss[i]? = some s ∧ s.uuid = sid := by
  induction ss generalizing i with
  | nil => cases h
  | cons t rest ih =>
    unfold firstIdxWithUuid at h
    by_cases ht : t.uuid = sid
    · rw [if_pos ht] at h
      injection h with h
      subst h
      exact ⟨t, by simp, ht⟩
    · rw [if_neg ht] at h
      rcases ho : firstIdxWithUuid sid rest with _ | j
      · rw [ho] at h
        cases h
      · rw [ho] at h
        simp only [Option.map_some'] at h
        injection h with h
        obtain ⟨s, hs, hsu⟩ := ih ho
        refine ⟨s, ?_, hsu⟩
        rw [← h]
        rw [List.getElem?_cons_succ]
        exact hs

theorem nodup_uuid_eq {ss : List Session} (hnd : uuidsNodup ss)
    {i j : Nat} {s t : Session} (hi : ss[i]? = some s) (hj : ss[j]? = some t)
    (huv : s.uuid = t.uuid) : s = t := by
  have hpw : ss.Pairwise (fun a b => a.uuid ≠ b.uuid) := by
    have := hnd
    unfold uuidsNodup at this
    rw [List.Nodup] at this
    exact (List.pairwise_map.mp this)
  have hil : i < ss.length := lt_length_of_getElem? hi
  have hjl : j < ss.length := lt_length_of_getElem? hj
  have hgi : ss[i] = s := by
    rw [List.getElem?_eq_getElem hil] at hi
    injection hi
  have hgj : ss[j] = t := by
    rw [List.getElem?_eq_getElem hjl] at hj
    injection hj
  rcases Nat.lt_trichotomy i j with hij | hij | hij
  · exfalso
    have := List.pairwise_iff_getElem.mp hpw i j hil hjl hij
    rw [hgi, hgj] at this
    exact this huv
  · subst hij
    rw [← hgi, ← hgj]
  · exfalso
    have := List.pairwise_iff_getElem.mp hpw j i hjl hil hij
    rw [hgi, hgj] at this
    exact this huv.symm

/-- Under well-formedness, the id returned by the scan belongs to a session
with a non-empty queue, and under distinct uuids that session is exactly the
one the loop body looks up. -/
theorem found_session_nonempty {ss : List Session} {sid i : Nat}
    {session : Session} (hwf : sessionsWF ss) (hnd : uuidsNodup ss)
    (hfind : findSessionWithHighestRankedApplication ss = some sid)
    (hidx : firstIdxWithUuid sid ss = some i)
    (hget : ss[i]? = some session) :
    session.applications ≠ [] := by
  obtain ⟨j, sw, a, hj, hhead, hsid, -, -⟩ := find_some_char hfind
  have hswu : sid = sw.uuid := by
    rw [hsid]
    exact hwf sw (List.getElem?_mem hj) a (mem_of_head? hhead)
  obtain ⟨s', hs', hs'u⟩ := firstIdx_spec hidx
  have hss : session = s' := by
    rw [hget] at hs'
    injection hs'
  subst hss
  have hses : session = sw :=
    nodup_uuid_eq hnd hget hj (hs'u.trans hswu)
  subst hses
  intro hnil
  rw [hnil] at hhead
  cases hhead

/-- Under well-formedness the scan's id always locates a session. -/
theorem firstIdx_some_of_find {ss : List Session} {sid : Nat}
    (hwf : sessionsWF ss)
    (hfind : findSessionWithHighestRankedApplication ss = some sid) :
    ∃ i, firstIdxWithUuid sid ss = some i := by
  obtain ⟨j, sw, a, hj, hhead, hsid, -, -⟩ := find_some_char hfind
  have hswu : sw.uuid = sid := by
    rw [hsid]
    exact (hwf sw (List.getElem?_mem hj) a (mem_of_head? hhead)).symm
  have := firstIdx_isSome_of_mem (List.getElem?_mem hj) hswu
  rcases ho : firstIdxWithUuid sid ss with _ | i
  · rw [ho] at this
    cases this
  · exact ⟨i, rfl⟩

/-- Under well-formedness and distinct session uuids, a loop iteration never
panics. -/
theorem allocStep_ne_panic {ps : List (Nat × Participant)}
    {ss : List Session} (hwf : sessionsWF ss) (hnd : uuidsNodup ss) :
    allocStep ps ss ≠ .panic := by
  unfold allocStep
  rcases hfind : findSessionWithHighestRankedApplication ss with _ | sid
  · intro h
    cases h
  · obtain ⟨i, hidx⟩ := firstIdx_some_of_find hwf hfind
    obtain ⟨s', hs', -⟩ := firstIdx_spec hidx
    dsimp only
    rw [hidx]
    dsimp only
    rw [hs']
    dsimp only
    by_cases hcap : s'.seats ≤ s'.participants.length
    · rw [if_pos hcap]
      intro h
      cases h
    · rw [if_neg hcap]
      rcases happs : s'.applications with _ | ⟨app, rest⟩
      · exact absurd happs (found_session_nonempty hwf hnd hfind hidx hs')
      · intro h
        cases h

/-- A loop iteration reports `done` exactly when the scan finds nothing. -/
theorem allocStep_done_iff (ps : List (Nat × Participant))
    (ss : List Session) :
    allocStep ps ss = .done ↔
      findSessionWithHighestRankedApplication ss = none := by
  constructor
  · intro h
    rcases hfind : findSessionWithHighestRankedApplication ss with _ | sid
    · rfl
    · exfalso
      unfold allocStep at h
      rw [hfind] at h
      dsimp only at h
      rcases hidx : firstIdxWithUuid sid ss with _ | i <;>
          rw [hidx] at h <;> dsimp only at h
      · cases h
      · rcases hget : ss[i]? with _ | s <;> rw [hget] at h <;> dsimp only at h
        · cases h
        · by_cases hcap : s.seats ≤ s.participants.length
          · rw [if_pos hcap] at h
            cases h
          · rw [if_neg hcap] at h
            rcases happ : s.applications with _ | ⟨a, r⟩ <;>
                rw [happ] at h <;> dsimp only at h
            · cases h
            · cases h
  · intro h
    unfold allocStep
    rw [h]

/-- Inversion of a continuing loop iteration: either the Exhaust branch
(full session, queue cleared) or the Assign branch (head application seated,
the participant's other applications purged, carried points overwritten). -/
theorem allocStep_next_inv {ps ps' : List (Nat × Participant)}
    {ss ss' : List Session} (h : allocStep ps ss = .next ps' ss') :
    ∃ (sid i : Nat) (session : Session),
      findSessionWithHighestRankedApplication ss = some sid ∧
      firstIdxWithUuid sid ss = some i ∧ ss[i]? = some session ∧
      ((session.seats ≤ session.participants.length ∧ ps' = ps ∧
        ss' = ss.set i { session with applications := [] }) ∨
       (¬ session.seats ≤ session.participants.length ∧
        ∃ (app : Application) (rest : List Application),
          session.applications = app :: rest ∧
          ps' = setPoints ps app.participant (carryPoints app.priority) ∧
          ss' = (ss.set i { session with
              participants := session.participants ++ [app.participant],
              applications := rest }).map
            (fun s =>
              { s with applications := s.applications.filter (fun a => a.participant != app.participant) }))) := by
  unfold allocStep at h
  rcases hfind : findSessionWithHighestRankedApplication ss with _ | sid <;>
      rw [hfind] at h <;> dsimp only at h
  · cases h
  · rcases hidx : firstIdxWithUuid sid ss with _ | i <;>
        rw [hidx] at h <;> dsimp only at h
    · cases h
    · rcases hget : ss[i]? with _ | s <;> rw [hget] at h <;> dsimp only at h
      · cases h
      · refine ⟨sid, i, s, rfl, hidx, hget, ?_⟩
        by_cases hcap : s.seats ≤ s.participants.length
        · rw [if_pos hcap] at h
          injection h with h1 h2
          exact Or.inl ⟨hcap, h1.symm, h2.symm⟩
        · rw [if_neg hcap] at h
          rcases happ : s.applications with _ | ⟨a, r⟩ <;>
              rw [happ] at h <;> dsimp only at h
          · cases h
          · injection h with h1 h2
            exact Or.inr ⟨hcap, a, r, rfl, h1.symm, h2.symm⟩

/-! ## Helper lemmas: arithmetic over sessions -/

theorem seatOcc_set_add (pid : Nat) :
    ∀ (ss : List Session) (i : Nat) (s s' : Session), ss[i]? = some s →
      seatOcc pid (ss.set i s') + s.participants.count pid =
        seatOcc pid ss + s'.participants.count pid := by
  intro ss
  induction ss with
  | nil =>
    intro i s s' h
    cases h
  | cons hd tl ih =>
    intro i s s' h
    cases i with
    | zero =>
      have hs : s = hd := by
        simp only [List.getElem?_cons_zero] at h
        injection h with h
        exact h.symm
      subst hs
      simp only [List.set_cons_zero, seatOcc]
      omega
    | succ n =>
      rw [List.getElem?_cons_succ] at h
      simp only [List.set_cons_succ, seatOcc]
      have := ih n s s' h
      omega

theorem seatOcc_map_same (pid : Nat) (f : Session → Session)
    (hf : ∀ s, (f s).participants = s.participants) :
    ∀ ss : List Session, seatOcc pid (ss.map f) = seatOcc pid ss := by
  intro ss
  induction ss with
  | nil => rfl
  | cons hd tl ih =>
    simp only [List.map_cons, seatOcc, hf, ih]

theorem totalApps_set_add :
    ∀ (ss : List Session) (i : Nat) (s s' : Session), ss[i]? = some s →
      totalApplications (ss.set i s') + s.applications.length =
        totalApplications ss + s'.applications.length := by
  intro ss
  induction ss with
  | nil =>
    intro i s s' h
    cases h
  | cons hd tl ih =>
    intro i s s' h
    cases i with
    | zero =>
      have hs : s = hd := by
        simp only [List.getElem?_cons_zero] at h
        injection h with h
        exact h.symm
      subst hs
      simp only [List.set_cons_zero, totalApplications]
      omega
    | succ n =>
      rw [List.getElem?_cons_succ] at h
      simp only [List.set_cons_succ, totalApplications]
      have := ih n s s' h
      omega

theorem totalApps_map_le (f : Session → Session)
    (hf : ∀ s, (f s).applications.length ≤ s.applications.length) :
    ∀ ss : List Session,
      totalApplications (ss.map f) ≤ totalApplications ss := by
  intro ss
  induction ss with
  | nil => exact Nat.le_refl 0
  | cons hd tl ih =>
    simp only [List.map_cons, totalApplications]
    have := hf hd
    omega

theorem map_uuid_set :
    ∀ (ss : List Session) (i : Nat) (s s' : Session), ss[i]? = some s →
      s'.uuid = s.uuid →
      (ss.set i s').map (fun x => x.uuid) = ss.map (fun x => x.uuid) := by
  intro ss
  induction ss with
  | nil =>
    intro i s s' h _
    cases h
  | cons hd tl ih =>
    intro i s s' h hu
    cases i with
    | zero =>
      have hs : s = hd := by
        simp only [List.getElem?_cons_zero] at h
        injection h with h
        exact h.symm
      subst hs
      simp only [List.set_cons_zero, List.map_cons, hu]
    | succ n =>
      rw [List.getElem?_cons_succ] at h
      simp only [List.set_cons_succ, List.map_cons, ih n s s' h hu]

/-! ## Step preservation lemmas -/

/-- A continuing iteration never exceeds any session's capacity. -/
theorem allocStep_preserves_capOK {ps ps' : List (Nat × Participant)}
    {ss ss' : List Session} (h : allocStep ps ss = .next ps' ss')
    (hcap : capOK ss) : capOK ss' := by
  obtain ⟨sid, i, session, hfind, hidx, hget, hbr⟩ := allocStep_next_inv h
  rcases hbr with ⟨hfull, -, hss'⟩ | ⟨hnot, app, rest, happ, -, hss'⟩
  · subst hss'
    intro s hs
    rcases List.mem_or_eq_of_mem_set hs with hs | hs
    · exact hcap s hs
    · subst hs
      exact hcap session (List.getElem?_mem hget)
  · subst hss'
    intro s hs
    obtain ⟨t, ht, hts⟩ := List.mem_map.mp hs
    rw [← hts]
    show t.participants.length ≤ t.seats
    rcases List.mem_or_eq_of_mem_set ht with ht | ht
    · exact hcap t ht
    · subst ht
      show (session.participants ++ [app.participant]).length ≤ session.seats
      rw [List.length_append]
      have := hcap session (List.getElem?_mem hget)
      simp only [List.length_cons, List.length_nil]
      omega

/-- A continuing iteration keeps every pending application inside the
session it references. -/
theorem allocStep_preserves_wf {ps ps' : List (Nat × Participant)}
    {ss ss' : List Session} (h : allocStep ps ss = .next ps' ss')
    (hwf : sessionsWF ss) : sessionsWF ss' := by
  obtain ⟨sid, i, session, hfind, hidx, hget, hbr⟩ := allocStep_next_inv h
  rcases hbr with ⟨hfull, -, hss'⟩ | ⟨hnot, app, rest, happ, -, hss'⟩
  · subst hss'
    intro s hs a ha
    rcases List.mem_or_eq_of_mem_set hs with hs | hs
    · exact hwf s hs a ha
    · subst hs
      cases ha
  · subst hss'
    intro s hs a ha
    obtain ⟨t, ht, hts⟩ := List.mem_map.mp hs
    rw [← hts] at ha ⊢
    show a.session_uuid = t.uuid
    have ha' : a ∈ t.applications := (List.mem_filter.mp ha).1
    rcases List.mem_or_eq_of_mem_set ht with ht | ht
    · exact hwf t ht a ha'
    · subst ht
      show a.session_uuid = session.uuid
      have : a ∈ session.applications := by
        rw [happ]
        exact List.mem_cons_of_mem app ha'
      exact hwf session (List.getElem?_mem hget) a this

/-- A continuing iteration does not change the sequence of session uuids. -/
theorem allocStep_uuid_map {ps ps' : List (Nat × Participant)}
    {ss ss' : List Session} (h : allocStep ps ss = .next ps' ss') :
    ss'.map (fun s => s.uuid) = ss.map (fun s => s.uuid) := by
  obtain ⟨sid, i, session, hfind, hidx, hget, hbr⟩ := allocStep_next_inv h
  rcases hbr with ⟨hfull, -, hss'⟩ | ⟨hnot, app, rest, happ, -, hss'⟩
  · subst hss'
    exact map_uuid_set ss i session _ hget rfl
  · subst hss'
    rw [List.map_map]
    have : ((fun s : Session => s.uuid) ∘
        (fun s : Session =>
          { s with applications := s.applications.filter (fun a => a.participant != app.participant) })) =
        (fun s : Session => s.uuid) := by
      funext s
      rfl
    rw [this]
    exact map_uuid_set ss i session _ hget rfl

/-- A continuing iteration strictly decreases the number of pending
applications, provided the slot is well formed with distinct session
uuids. -/
theorem allocStep_totalApps_lt {ps ps' : List (Nat × Participant)}
    {ss ss' : List Session} (hwf : sessionsWF ss) (hnd : uuidsNodup ss)
    (h : allocStep ps ss = .next ps' ss') :
    totalApplications ss' < totalApplications ss := by
  obtain ⟨sid, i, session, hfind, hidx, hget, hbr⟩ := allocStep_next_inv h
  rcases hbr with ⟨hfull, -, hss'⟩ | ⟨hnot, app, rest, happ, -, hss'⟩
  · subst hss'
    have hne : session.applications ≠ [] :=
      found_session_nonempty hwf hnd hfind hidx hget
    have hpos : 0 < session.applications.length := List.length_pos.mpr hne
    have := totalApps_set_add ss i session { session with applications := [] }
      hget
    simp only [List.length_nil] at this
    omega
  · subst hss'
    have hle := totalApps_map_le
      (fun s : Session =>
        { s with applications := s.applications.filter (fun a => a.participant != app.participant) })
      (fun s => List.length_filter_le _ _) (ss.set i { session with
        participants := session.participants ++ [app.participant],
        applications := rest })
    have heq := totalApps_set_add ss i session { session with
        participants := session.participants ++ [app.participant],
        applications := rest } hget
    simp only at heq
    rw [happ] at heq
    simp only [List.length_cons] at heq
    omega

/-- A continuing iteration preserves the at-most-one-seat invariant for any
participant: either the participant holds no seat in the slot, or exactly
one seat and no remaining pending application. -/
theorem allocStep_seatInv (pid : Nat) {ps ps' : List (Nat × Participant)}
    {ss ss' : List Session} (h : allocStep ps ss = .next ps' ss')
    (hinv : seatOcc pid ss = 0 ∨ (seatOcc pid ss = 1 ∧
      ∀ s ∈ ss, ∀ a ∈ s.applications, a.participant ≠ pid)) :
    seatOcc pid ss' = 0 ∨ (seatOcc pid ss' = 1 ∧
      ∀ s ∈ ss', ∀ a ∈ s.applications, a.participant ≠ pid) := by
  obtain ⟨sid, i, session, hfind, hidx, hget, hbr⟩ := allocStep_next_inv h
  rcases hbr with ⟨hfull, -, hss'⟩ | ⟨hnot, app, rest, happ, -, hss'⟩
  · -- Exhaust: participants unchanged, applications only removed
    subst hss'
    have hocc : seatOcc pid (ss.set i { session with applications := [] }) =
        seatOcc pid ss := by
      have := seatOcc_set_add pid ss i session
        { session with applications := [] } hget
      simp only at this
      omega
    rw [hocc]
    rcases hinv with h0 | ⟨h1, hnoapp⟩
    · exact Or.inl h0
    · refine Or.inr ⟨h1, ?_⟩
      intro s hs a ha
      rcases List.mem_or_eq_of_mem_set hs with hs | hs
      · exact hnoapp s hs a ha
      · subst hs
        cases ha
  · -- Assign branch
    have hocc : seatOcc pid ss' =
        seatOcc pid ss + (if app.participant = pid then 1 else 0) := by
      subst hss'
      rw [seatOcc_map_same pid
        (fun s : Session =>
          { s with applications := s.applications.filter (fun a => a.participant != app.participant) })
        (fun s => rfl)]
      have := seatOcc_set_add pid ss i session { session with
          participants := session.participants ++ [app.participant],
          applications := rest } hget
      simp only [List.count_append] at this
      by_cases hap : app.participant = pid
      · subst hap
        have hsing : ([app.participant] : List Nat).count app.participant = 1 := by
          simp
        rw [hsing] at this
        rw [if_pos rfl]
        omega
      · have hsing : ([app.participant] : List Nat).count pid = 0 := by
          simp [List.count_cons, hap]
        rw [hsing] at this
        rw [if_neg hap]
        omega
    by_cases hap : app.participant = pid
    · -- the seated participant is `pid`
      rcases hinv with h0 | ⟨h1, hnoapp⟩
      · refine Or.inr ⟨by rw [hocc, h0, if_pos hap], ?_⟩
        subst hss'
        intro s hs a ha
        obtain ⟨t, ht, hts⟩ := List.mem_map.mp hs
        rw [← hts] at ha
        have := (List.mem_filter.mp ha).2
        rw [hap] at this
        simpa using this
      · exfalso
        have happmem : app ∈ session.applications := by
          rw [happ]
          exact List.mem_cons_self app rest
        exact hnoapp session (List.getElem?_mem hget) app happmem hap
    · -- another participant is seated: `pid`'s seats are untouched and its
      -- pending applications only shrink
      rw [hocc, if_neg hap]
      rcases hinv with h0 | ⟨h1, hnoapp⟩
      · exact Or.inl (by omega)
      · refine Or.inr ⟨by omega, ?_⟩
        subst hss'
        intro s hs a ha
        obtain ⟨t, ht, hts⟩ := List.mem_map.mp hs
        rw [← hts] at ha
        have ha' : a ∈ t.applications := (List.mem_filter.mp ha).1
        rcases List.mem_or_eq_of_mem_set ht with ht | ht
        · exact hnoapp t ht a ha'
        · subst ht
          have : a ∈ session.applications := by
            rw [happ]
            exact List.mem_cons_of_mem app ha'
          exact hnoapp session (List.getElem?_mem hget) a this

/-! ## Loop lemmas -/

/-- Any property of the session list preserved by continuing iterations
holds for the state in which the loop returns. -/
theorem allocLoop_inv {I : List Session → Prop}
    (hstep : ∀ ps ss ps' ss', allocStep ps ss = .next ps' ss' → I ss → I ss') :
    ∀ (fuel : Nat) (ps : List (Nat × Participant)) (ss : List Session)
      (ps' : List (Nat × Participant)) (ss' : List Session),
      allocLoop fuel ps ss = some (ps', ss') → I ss → I ss' := by
  intro fuel
  induction fuel with
  | zero =>
    intro ps ss ps' ss' h _
    cases h
  | succ n ih =>
    intro ps ss ps' ss' h hI
    unfold allocLoop at h
    rcases hstep' : allocStep ps ss with _ | _ | ⟨ps1, ss1⟩
    · simp only [hstep', Option.some.injEq, Prod.mk.injEq] at h
      rw [← h.2]
      exact hI
    · simp only [hstep'] at h
      exact Option.noConfusion h
    · simp only [hstep'] at h
      exact ih ps1 ss1 ps' ss' h (hstep ps ss ps1 ss1 hstep' hI)

/-- When the loop returns, the scan finds nothing: every queue in the final
state is empty. -/
theorem allocLoop_final_find_none :
    ∀ (fuel : Nat) (ps : List (Nat × Participant)) (ss : List Session)
      (ps' : List (Nat × Participant)) (ss' : List Session),
      allocLoop fuel ps ss = some (ps', ss') →
      findSessionWithHighestRankedApplication ss' = none := by
  intro fuel
  induction fuel with
  | zero =>
    intro ps ss ps' ss' h
    cases h
  | succ n ih =>
    intro ps ss ps' ss' h
    unfold allocLoop at h
    rcases hstep : allocStep ps ss with _ | _ | ⟨ps1, ss1⟩
    · simp only [hstep, Option.some.injEq, Prod.mk.injEq] at h
      rw [← h.2]
      exact (allocStep_done_iff ps ss).mp hstep
    · simp only [hstep] at h
      exact Option.noConfusion h
    · simp only [hstep] at h
      exact ih ps1 ss1 ps' ss' h

/-- Under well-formedness and distinct session uuids, the loop returns with
any fuel exceeding the number of pending applications (each continuing
iteration consumes at least one application). -/
theorem allocLoop_isSome :
    ∀ (fuel : Nat) (ps : List (Nat × Participant)) (ss : List Session),
      sessionsWF ss → uuidsNodup ss → totalApplications ss < fuel →
      (allocLoop fuel ps ss).isSome := by
  intro fuel
  induction fuel with
  | zero =>
    intro ps ss _ _ hlt
    omega
  | succ n ih =>
    intro ps ss hwf hnd hlt
    unfold allocLoop
    rcases hstep : allocStep ps ss with _ | _ | ⟨ps1, ss1⟩
    · rfl
    · exact absurd hstep (allocStep_ne_panic hwf hnd)
    · have hwf1 : sessionsWF ss1 := allocStep_preserves_wf hstep hwf
      have hnd1 : uuidsNodup ss1 := by
        unfold uuidsNodup at hnd ⊢
        rw [allocStep_uuid_map hstep]
        exact hnd
      have hdec := allocStep_totalApps_lt hwf hnd hstep
      exact ih ps1 ss1 hwf1 hnd1 (by omega)

/-! ## Event-level helper lemmas -/

/-- Inversion of a successful `allocate_participants_in_slot` call. -/
theorem in_slot_eq {e : Event} {i : Nat} {e' : Event}
    (h : allocate_participants_in_slot e i = some e') :
    ∃ (slot : Slot) (ps' : List (Nat × Participant)) (ss' : List Session),
      e.slots[i]? = some slot ∧
      allocLoop (totalApplications slot.sessions + 1)
        e.participants slot.sessions = some (ps', ss') ∧
      e' = { e with
        participants := ps',
        slots := e.slots.set i { slot with sessions := ss' } } := by
  unfold allocate_participants_in_slot at h
  rcases hslot : e.slots[i]? with _ | slot
  · rw [hslot] at h
    exact Option.noConfusion h
  · rw [hslot] at h
    dsimp only at h
    rcases hloop : allocLoop (totalApplications slot.sessions + 1)
        e.participants slot.sessions with _ | ⟨ps', ss'⟩
    · rw [hloop] at h
      exact Option.noConfusion h
    · rw [hloop] at h
      dsimp only at h
      injection h with h
      exact ⟨slot, ps', ss', rfl, hloop, h.symm⟩

/-- A successful slot allocation keeps the event state, the slot count, the
well-formedness of every slot and the distinctness of session uuids. -/
theorem in_slot_props {e : Event} {i : Nat} {e' : Event}
    (h : allocate_participants_in_slot e i = some e') :
    e'.state = e.state ∧ e'.slots.length = e.slots.length ∧
    (eventWF e → eventWF e') ∧
    (eventUuidsNodup e → eventUuidsNodup e') := by
  obtain ⟨slot, ps', ss', hslot, hloop, he'⟩ := in_slot_eq h
  subst he'
  refine ⟨rfl, by simp, ?_, ?_⟩
  · intro hwf slot' hs
    rcases List.mem_or_eq_of_mem_set hs with hs | hs
    · exact hwf slot' hs
    · subst hs
      show sessionsWF ss'
      exact allocLoop_inv
        (fun ps ss ps2 ss2 hstep hI => allocStep_preserves_wf hstep hI)
        _ _ _ _ _ hloop (hwf slot (List.getElem?_mem hslot))
  · intro hnd slot' hs
    rcases List.mem_or_eq_of_mem_set hs with hs | hs
    · exact hnd slot' hs
    · subst hs
      show uuidsNodup ss'
      refine allocLoop_inv (I := uuidsNodup)
        (fun ps ss ps2 ss2 hstep hI => ?_) _ _ _ _ _ hloop
        (hnd slot (List.getElem?_mem hslot))
      unfold uuidsNodup at hI ⊢
      rw [allocStep_uuid_map hstep]
      exact hI

/-- A valid slot index with a well-formed, duplicate-free slot allocates
without panicking. -/
theorem in_slot_isSome (e : Event) (i : Nat) (hi : i < e.slots.length)
    (hwf : eventWF e) (hnd : eventUuidsNodup e) :
    ∃ e', allocate_participants_in_slot e i = some e' := by
  rcases hslot : e.slots[i]? with _ | slot
  · rw [List.getElem?_eq_none_iff] at hslot
    omega
  · have hsome := allocLoop_isSome (totalApplications slot.sessions + 1)
      e.participants slot.sessions
      (hwf slot (List.getElem?_mem hslot))
      (hnd slot (List.getElem?_mem hslot))
      (by omega)
    rcases hloop : allocLoop (totalApplications slot.sessions + 1)
        e.participants slot.sessions with _ | ⟨ps', ss'⟩
    · rw [hloop] at hsome
      cases hsome
    · refine ⟨{ e with
        participants := ps',
        slots := e.slots.set i { slot with sessions := ss' } }, ?_⟩
      unfold allocate_participants_in_slot
      rw [hslot]
      dsimp only
      rw [hloop]

/-- Folding slot allocation over any list of valid indices succeeds and
preserves state, slot count, well-formedness and uuid distinctness. -/
theorem foldl_alloc_isSome :
    ∀ (idxs : List Nat) (e : Event), (∀ i ∈ idxs, i < e.slots.length) →
      eventWF e → eventUuidsNodup e →
      ∃ e', idxs.foldlM (fun ev i => allocate_participants_in_slot ev i) e
          = some e' ∧
        e'.state = e.state ∧ e'.slots.length = e.slots.length ∧
        eventWF e' ∧ eventUuidsNodup e' := by
  intro idxs
  induction idxs with
  | nil =>
    intro e _ hwf hnd
    exact ⟨e, rfl, rfl, rfl, hwf, hnd⟩
  | cons i rest ih =>
    intro e hvalid hwf hnd
    obtain ⟨e1, he1⟩ := in_slot_isSome e i
      (hvalid i (List.mem_cons_self i rest)) hwf hnd
    obtain ⟨hst, hlen, hwfp, hndp⟩ := in_slot_props he1
    obtain ⟨e', he', hst', hlen', hwf', hnd'⟩ := ih e1
      (fun j hj => by
        rw [hlen]
        exact hvalid j (List.mem_cons_of_mem i hj))
      (hwfp hwf) (hndp hnd)
    refine ⟨e', ?_, hst'.trans hst, hlen'.trans hlen, hwf', hnd'⟩
    rw [List.foldlM_cons, he1]
    exact he'

/-- Any event property preserved by successful single-slot allocation is
preserved by folding over any index list. -/
theorem foldl_alloc_inv {P : Event → Prop}
    (hstep : ∀ ev i ev', allocate_participants_in_slot ev i = some ev' →
      P ev → P ev') :
    ∀ (idxs : List Nat) (ev ev' : Event),
      idxs.foldlM (fun ev i => allocate_participants_in_slot ev i) ev
        = some ev' → P ev → P ev' := by
  intro idxs
  induction idxs with
  | nil =>
    intro ev ev' h hP
    injection h with h
    rw [← h]
    exact hP
  | cons i rest ih =>
    intro ev ev' h hP
    rw [List.foldlM_cons] at h
    rcases hstep1 : allocate_participants_in_slot ev i with _ | ev1
    · rw [hstep1] at h
      exact Option.noConfusion h
    · rw [hstep1] at h
      simp only [Option.bind_eq_bind, Option.some_bind] at h
      exact ih ev1 ev' h (hstep ev i ev1 hstep1 hP)

/-! ## Claim C1 -/

/-- C1.  For every event whose sessions each initially satisfy
`len(assigned participants) ≤ seats` and whose pending applications each
reference the session holding them, after `allocate_participants` (and after
every `allocate_participants_in_slot` call) every session still satisfies
`len(assigned participants) ≤ seats`. -/
theorem claim1_capacity_invariant (e : Event)
    (hcap : ∀ slot ∈ e.slots, capOK slot.sessions) (_hwf : eventWF e) :
    (∀ e', allocate_participants e = some e' →
      ∀ slot ∈ e'.slots, capOK slot.sessions) ∧
    (∀ (i : Nat) (e' : Event), allocate_participants_in_slot e i = some e' →
      ∀ slot ∈ e'.slots, capOK slot.sessions) := by
  have hone : ∀ (ev : Event) (i : Nat) (ev' : Event),
      allocate_participants_in_slot ev i = some ev' →
      (∀ slot ∈ ev.slots, capOK slot.sessions) →
      ∀ slot ∈ ev'.slots, capOK slot.sessions := by
    intro ev i ev' h hc
    obtain ⟨slot, ps', ss', hslot, hloop, he'⟩ := in_slot_eq h
    subst he'
    intro slot' hs
    rcases List.mem_or_eq_of_mem_set hs with hs | hs
    · exact hc slot' hs
    · subst hs
      show capOK ss'
      exact allocLoop_inv (I := capOK)
        (fun ps ss ps2 ss2 hstep hI => allocStep_preserves_capOK hstep hI)
        _ _ _ _ _ hloop (hc slot (List.getElem?_mem hslot))
  constructor
  · intro e' h
    exact foldl_alloc_inv hone _ e e' h hcap
  · intro i e' h
    exact hone e i e' h hcap

/-- Witness for C1 on Scenario A's event: the allocated slot still satisfies
the capacity invariant. -/
theorem claim1_capacity_invariant_witness :
    capOK demoSlotFinal.sessions :=
  (claim1_capacity_invariant demoEvent (by decide) (by decide)).2 0
    demoAllocated (by decide) demoSlotFinal (by decide)

/-! ## Claim C2 -/

/-- C2.  For every event whose pending applications each reference the
session holding them, whenever `allocate_participants_in_slot` returns, every
session of the processed slot has an empty applications list. -/
theorem claim2_queue_drain (e : Event) (i : Nat) (_hwf : eventWF e) :
    ∀ (e' : Event), allocate_participants_in_slot e i = some e' →
      ∀ slot', e'.slots[i]? = some slot' →
        ∀ s ∈ slot'.sessions, s.applications = [] := by
  intro e' h slot' hslot'
  obtain ⟨slot, ps', ss', hslot, hloop, he'⟩ := in_slot_eq h
  subst he'
  have hi : i < e.slots.length := lt_length_of_getElem? hslot
  have hset : (e.slots.set i { slot with sessions := ss' })[i]?
      = some { slot with sessions := ss' } := by
    simp [List.getElem?_set_self, hi]
  have hslot'' : (e.slots.set i { slot with sessions := ss' })[i]?
      = some slot' := hslot'
  rw [hset] at hslot''
  injection hslot'' with hslot''
  rw [← hslot'']
  intro s hs
  exact (find_none_iff ss').mp
    (allocLoop_final_find_none _ _ _ _ _ hloop) s hs

/-- Witness for C2 on Scenario A's event: the final Math session's queue is
empty. -/
theorem claim2_queue_drain_witness :
    ({ uuid := 1, name := "Math", description := none, seats := 1, participants := [10], applications := [] } : Session).applications = [] :=
  claim2_queue_drain demoEvent 0 (by decide) demoAllocated (by decide)
    demoSlotFinal (by decide)
    { uuid := 1, name := "Math", description := none, seats := 1, participants := [10], applications := [] }
    (by decide)

/-! ## Claim C3 -/

/-- C3.  For every slot index and every participant who is assigned in no
session of that slot before the run, after `allocate_participants_in_slot`
the participant occupies at most one seat across the slot's sessions
(counting repetitions inside a single session). -/
theorem claim3_at_most_one_seat (e : Event) (i pid : Nat) (slot0 : Slot)
    (hslot0 : e.slots[i]? = some slot0)
    (hpre : seatOcc pid slot0.sessions = 0) :
    ∀ (e' : Event) (slot' : Slot),
      allocate_participants_in_slot e i = some e' →
      e'.slots[i]? = some slot' → seatOcc pid slot'.sessions ≤ 1 := by
  intro e' slot' h hslot'
  obtain ⟨slot, ps', ss', hslot, hloop, he'⟩ := in_slot_eq h
  have hsl : slot = slot0 := by
    rw [hslot0] at hslot
    injection hslot with hsl
    exact hsl.symm
  subst he'
  have hi : i < e.slots.length := lt_length_of_getElem? hslot
  have hset : (e.slots.set i { slot with sessions := ss' })[i]?
      = some { slot with sessions := ss' } := by
    simp [List.getElem?_set_self, hi]
  have hslot'' : (e.slots.set i { slot with sessions := ss' })[i]?
      = some slot' := hslot'
  rw [hset] at hslot''
  injection hslot'' with hslot''
  have hfinal := allocLoop_inv
    (I := fun ss => seatOcc pid ss = 0 ∨ (seatOcc pid ss = 1 ∧
      ∀ s ∈ ss, ∀ a ∈ s.applications, a.participant ≠ pid))
    (fun ps ss ps2 ss2 hstep hI => allocStep_seatInv pid hstep hI)
    _ _ _ _ _ hloop (Or.inl (by rw [hsl]; exact hpre))
  have hsess : slot'.sessions = ss' := by
    rw [← hslot'']
  rw [hsess]
  rcases hfinal with h0 | ⟨h1, -⟩
  · omega
  · omega

/-- Witness for C3: P2 (id 11) holds no seat before the run and at most one
seat after it. -/
theorem claim3_at_most_one_seat_witness :
    seatOcc 11 demoSlotFinal.sessions ≤ 1 :=
  claim3_at_most_one_seat demoEvent 0 11 demoSlot (by decide) (by decide)
    demoAllocated demoSlotFinal (by decide) (by decide)

/-! ## Ranking preserves the structural invariants -/

theorem rank_applications_mem (s : Session) (ps : List (Nat × Participant)) :
    ∀ b ∈ (rank_applications s ps).applications,
      ∃ (a : Application) (p : Participant),
        a ∈ s.applications ∧ lookupP ps a.participant = some p ∧
        b = calculate_points p a := by
  intro b hb
  have hperm :
      ((rank_applications s ps).applications).Perm
        (s.applications.filterMap (fun a =>
          match lookupP ps a.participant with
          | none => none
          | some p => some (calculate_points p a))) := by
    unfold rank_applications
    exact perm_sortBy _ _
  have hb' := hperm.mem_iff.mp hb
  obtain ⟨a, ha, hfa⟩ := List.mem_filterMap.mp hb'
  rcases hp : lookupP ps a.participant with _ | p
  · rw [hp] at hfa
    cases hfa
  · rw [hp] at hfa
    injection hfa with hfa
    exact ⟨a, p, ha, hp, hfa.symm⟩

theorem rank_applications_wf {s : Session} {ps : List (Nat × Participant)}
    (hwf : ∀ a ∈ s.applications, a.session_uuid = s.uuid) :
    ∀ a ∈ (rank_applications s ps).applications,
      a.session_uuid = (rank_applications s ps).uuid := by
  intro a ha
  obtain ⟨a0, p, ha0, -, heq⟩ := rank_applications_mem s ps a ha
  rw [heq]
  show a0.session_uuid = s.uuid
  exact hwf a0 ha0

theorem rank_event_wf {e : Event} (hwf : eventWF e) :
    eventWF (rank_event e) := by
  intro slot' hs
  obtain ⟨sl, hsl, rfl⟩ := List.mem_map.mp hs
  intro s hs2 a ha
  obtain ⟨s0, hs0, rfl⟩ := List.mem_map.mp hs2
  exact rank_applications_wf (hwf sl hsl s0 hs0) a ha

theorem rank_event_nodup {e : Event} (hnd : eventUuidsNodup e) :
    eventUuidsNodup (rank_event e) := by
  intro slot' hs
  obtain ⟨sl, hsl, rfl⟩ := List.mem_map.mp hs
  show uuidsNodup (sl.sessions.map (fun s => rank_applications s e.participants))
  unfold uuidsNodup
  rw [List.map_map]
  have : ((fun s : Session => s.uuid) ∘
      (fun s => rank_applications s e.participants)) =
      (fun s : Session => s.uuid) := by
    funext s
    rfl
  rw [this]
  exact hnd sl hsl

/-! ## Claim C9 -/

/-- C9 (Scenario A).  One slot with Math and Art (capacity 1 each), P1 and
P2 applying first-preference to Math with P1's application uuid sorting
after P2's, P3 applying first-preference to Art, all carrying 0 points:
after ranking and slot allocation, P1 (id 10) is seated in Math, P3 (id 12)
in Art, P2 (id 11) is seated nowhere, and both queues are empty. -/
theorem claim9_scenario_a :
    allocate_participants_in_slot (rank_event demoEvent) 0
      = some demoAllocated ∧
    demoAllocated.slots = [demoSlotFinal] ∧
    demoSlotFinal.sessions.map
        (fun s => (s.name, s.participants, s.applications)) =
      [("Math", [10], []), ("Art", [12], [])] ∧
    (∀ s ∈ demoSlotFinal.sessions, (11 : Nat) ∉ s.participants) := by
  refine ⟨by decide, rfl, rfl, by decide⟩

/-- Witness for C9: P2 (id 11) is not seated in the final Math session. -/
theorem claim9_scenario_a_witness :
    (11 : Nat) ∉ ({ uuid := 1, name := "Math", description := none, seats := 1, participants := [10], applications := [] } : Session).participants :=
  claim9_scenario_a.2.2.2
    { uuid := 1, name := "Math", description := none, seats := 1, participants := [10], applications := [] }
    (by decide)

/-! ## Claim C10 -/

/-- Counterexample to C10 as stated: in `dupEvent` every pending application
references the session holding it and index 0 is valid, yet the loop panics
(`applications.remove(0)` on the first session with the duplicated uuid,
whose queue is empty while its seats are free). -/
theorem claim10_counterexample :
    0 < dupEvent.slots.length ∧ eventWF dupEvent ∧
    allocate_participants_in_slot dupEvent 0 = none := by
  refine ⟨by decide, by decide, by decide⟩

/-- C10 (amended: the slot's sessions must also carry pairwise distinct
uuids).  For a valid slot index on a well-formed event with distinct session
uuids per slot, `allocate_participants_in_slot` never reaches its panic
branches: it returns normally. -/
theorem claim10_no_panic (e : Event) (i : Nat) (hi : i < e.slots.length)
    (hwf : eventWF e) (hnd : eventUuidsNodup e) :
    (allocate_participants_in_slot e i).isSome := by
  obtain ⟨e', he'⟩ := in_slot_isSome e i hi hwf hnd
  rw [he']
  rfl

/-- Witness for the amended C10 on Scenario A's event. -/
theorem claim10_no_panic_witness :
    (allocate_participants_in_slot demoEvent 0).isSome :=
  claim10_no_panic demoEvent 0 (by decide) (by decide) (by decide)

/-! ## Claim C7 -/

/-- Counterexample to C7 as stated: `dupEvent` is open for registration,
yet `close_and_distribute` does not finish — allocation panics on the
duplicated session uuid, the response is not a success and the event is
left in `AssigningSeats`, not `Finished`. -/
theorem claim7_counterexample :
    dupEvent.state = EventState.OpenForRegistration ∧
    (close_and_distribute dupEvent).2 ≠ Except.ok () ∧
    (close_and_distribute dupEvent).1.state = EventState.AssigningSeats := by
  refine ⟨rfl, by decide, by decide⟩

/-- C7 (amended: on an open event the run completes provided the event data
is well formed — every pending application references the session holding it
and session uuids are distinct per slot).  `close_and_distribute` on an
existing event rejects with `BadRequest`, leaving the event untouched, iff
the state is not `OpenForRegistration`; on an open, well-formed event it
ranks every session of every slot against the participant table snapshot,
runs slot allocation over the slots in stored order, and leaves the event
`Finished`. -/
theorem claim7_close_and_distribute (ev : Event) (hwf : eventWF ev)
    (hnd : eventUuidsNodup ev) :
    ((close_and_distribute ev).2 = Except.error Status.BadRequest ↔
      ev.state ≠ EventState.OpenForRegistration) ∧
    (ev.state ≠ EventState.OpenForRegistration →
      close_and_distribute ev = (ev, Except.error Status.BadRequest)) ∧
    (ev.state = EventState.OpenForRegistration →
      ∃ ev3, allocate_participants
          (rank_event { ev with state := EventState.AssigningSeats })
          = some ev3 ∧
        ev3.state = EventState.AssigningSeats ∧
        close_and_distribute ev =
          ({ ev3 with state := EventState.Finished }, Except.ok ())) := by
  have hwf2 : eventWF (rank_event { ev with state := EventState.AssigningSeats }) :=
    rank_event_wf hwf
  have hnd2 : eventUuidsNodup (rank_event { ev with state := EventState.AssigningSeats }) :=
    rank_event_nodup hnd
  obtain ⟨ev3, h3, hst3, -, -, -⟩ := foldl_alloc_isSome
    (List.range (rank_event { ev with state := EventState.AssigningSeats }).slots.length)
    (rank_event { ev with state := EventState.AssigningSeats })
    (fun j hj => List.mem_range.mp hj) hwf2 hnd2
  have h3' : allocate_participants
      (rank_event { ev with state := EventState.AssigningSeats })
      = some ev3 := h3
  rcases hstate : ev.state with h1 | h2 | h3x | h4x
  · refine ⟨?_, ?_, ?_⟩
    · simp [close_and_distribute, hstate]
    · intro _
      simp [close_and_distribute, hstate]
    · intro hc
      exact absurd hc (by decide)
  · refine ⟨?_, ?_, ?_⟩
    · constructor
      · intro hbad
        simp only [close_and_distribute, hstate, h3'] at hbad
        cases hbad
      · intro hne
        exact absurd rfl hne
    · intro hne
      exact absurd rfl hne
    · intro _
      refine ⟨ev3, h3', hst3, ?_⟩
      simp only [close_and_distribute, hstate, h3']
  · refine ⟨?_, ?_, ?_⟩
    · simp [close_and_distribute, hstate]
    · intro _
      simp [close_and_distribute, hstate]
    · intro hc
      exact absurd hc (by decide)
  · refine ⟨?_, ?_, ?_⟩
    · simp [close_and_distribute, hstate]
    · intro _
      simp [close_and_distribute, hstate]
    · intro hc
      exact absurd hc (by decide)

/-- Witness for the amended C7: closing Scenario A's open event succeeds and
finishes; a finished event is rejected. -/
theorem claim7_close_and_distribute_witness :
    (close_and_distribute demoEvent).2 = Except.ok () ∧
    close_and_distribute { demoEvent with state := EventState.Finished }
      = ({ demoEvent with state := EventState.Finished },
         Except.error Status.BadRequest) := by
  constructor
  · obtain ⟨ev3, -, -, hc⟩ :=
      (claim7_close_and_distribute demoEvent (by decide) (by decide)).2.2
        (by decide)
    rw [hc]
  · exact (claim7_close_and_distribute
      { demoEvent with state := EventState.Finished }
      (by decide) (by decide)).2.1 (by decide)

end SeatDistribution
